import Mathlib

/-!
Shallow embedding of `rehydrate_mediavida.py` (conversa-ai/processMediavida).

The Python script rehydrates dehydrated dialogue-ID chains by scraping a forum
thread: it crawls paginated thread pages, extracts posts, anonymizes authors
into letter labels, and resolves each ID chain into turns.  We embed the pure
core of each function: `_index_to_letters`, `_assign_speaker`, `_clean_text`,
`_find_next_url`, the crawl loop of `scrape_thread_posts`, and the per-chain
processing loop of `main`.  Machine-level/IO concerns (HTTP, BeautifulSoup
parsing, file IO) are abstracted as oracle parameters; JSON values are an
explicit inductive; Python `dict`s become association lists.
-/

namespace ProcessMediavida

/-- Whitespace class of Python's regex `\s` restricted to ASCII
(space, tab, newline, carriage return, vertical tab, form feed). -/
def isPyWs (c : Char) : Bool :=
  c = ' ' || c = '\t' || c = '\n' || c = '\r' || c = '\x0b' || c = '\x0c'

/-- Strip leading and trailing whitespace from a char list
(Python `str.strip()` restricted to ASCII whitespace). -/
def stripChars (l : List Char) : List Char :=
  ((l.dropWhile isPyWs).reverse.dropWhile isPyWs).reverse

/-- Python `str.strip()` on strings. -/
def pyStrip (s : String) : String := ⟨stripChars s.data⟩

/-- `text.replace("\r\n", "\n").replace("\r", "\n")` from `_clean_text`:
each CRLF pair becomes one LF, every remaining CR becomes LF. -/
def normNewlines : List Char → List Char
  | [] => []
  | '\r' :: '\n' :: rest => '\n' :: normNewlines rest
  | '\r' :: rest => '\n' :: normNewlines rest
  | c :: rest => c :: normNewlines rest

/-- `_WS_RE.sub(" ", t)`: collapse every maximal run of whitespace characters
to a single space.  The flag records whether the previous character was
whitespace (i.e. whether we are inside a run already replaced). -/
def collapseWs : Bool → List Char → List Char
  | _, [] => []
  | prevWs, c :: rest =>
    if isPyWs c then
      if prevWs then collapseWs true rest
      else ' ' :: collapseWs true rest
    else c :: collapseWs false rest

/-- `_clean_text` (rehydrate_mediavida.py lines 69-75): normalize newlines,
collapse whitespace runs to single spaces, then strip. -/
def _clean_text (s : String) : String :=
  ⟨stripChars (collapseWs false (normNewlines s.data))⟩

/-- Loop body of `_index_to_letters` (lines 44-55), producing the letter
digits least-significant first.  The Python loop `while True: i, rem =
divmod(i, 26); append(chr(65+rem)); if i == 0: break; i -= 1` always
terminates because `i` strictly decreases; we make that explicit with a fuel
argument that any `fuel > i` saturates. -/
def idxLoop : Nat → Nat → List Char
  | 0, _ => []
  | fuel + 1, i =>
    let rem := i % 26
    let q := i / 26
    if q = 0 then [Char.ofNat (65 + rem)]
    else Char.ofNat (65 + rem) :: idxLoop fuel (q - 1)

/-- `_index_to_letters`: bijective base-26 letter encoding,
0 → "A", 25 → "Z", 26 → "AA", ... -/
def _index_to_letters (i : Nat) : String :=
  ⟨(idxLoop (i + 1) i).reverse⟩

/-- The per-run speaker map: Python `Dict[str, str]` from author token to
letter label, as an insertion-ordered association list. -/
abbrev SMap := List (String × String)

/-- Python `a in mapping` / `mapping[a]` on the association list. -/
def lookupS (m : SMap) (k : String) : Option String :=
  (m.find? (fun p => p.1 == k)).map (·.2)

/-- Author-token normalization of `_assign_speaker` (lines 58-61):
`a = (raw_author or "").strip(); if not a: a = "__unknown__"`. -/
def normTok (raw : String) : String :=
  let a := pyStrip raw
  if a = "" then "__unknown__" else a

/-- `_assign_speaker` (lines 58-66): return the existing label of the
normalized token, or assign the next bijective base-26 label (indexed by the
current map size) and insert it.  Returns the label and the updated map
(the Python function mutates `mapping` in place). -/
def _assign_speaker (raw : String) (m : SMap) : String × SMap :=
  let a := normTok raw
  match lookupS m a with
  | some lab => (lab, m)
  | none =>
    let lab := _index_to_letters m.length
    (lab, m ++ [(a, lab)])

/-- JSON values as produced by Python's `json.loads`: JSON integers and
floats both become `jnum` (a rational models the parsed number exactly for
the magnitudes at play; `json.loads` yields `int` for integral literals and
`float` otherwise, and both unify under truncating division below). -/
inductive JsonVal where
  | jnull
  | jbool (b : Bool)
  | jnum (q : ℚ)
  | jstr (s : String)
  | jarr (items : List JsonVal)
  | jobj (fields : List (String × JsonVal))

/-- Decimal value of a digit list. -/
def digitsToNat (l : List Char) : Nat :=
  l.foldl (fun acc c => 10 * acc + (c.toNat - 48)) 0

/-- Python `int(s)` for a string: strip whitespace, optional sign, then a
non-empty all-digit body; anything else raises `ValueError` (`none`). -/
def pyIntOfStr (s : String) : Option Int :=
  match (pyStrip s).data with
  | [] => none
  | c :: rest =>
    let p : Int × List Char :=
      if c = '-' then (-1, rest) else if c = '+' then (1, rest) else (1, c :: rest)
    if p.2.isEmpty then none
    else if p.2.all Char.isDigit then some (p.1 * digitsToNat p.2) else none

/-- Python `int()` on a float truncates toward zero; on the rational model
this is T-division of numerator by denominator. -/
def ratTrunc (q : ℚ) : Int := Int.tdiv q.num q.den

/-- `int(cid)` inside `main`'s chain loop (lines 288-291): succeeds on bools,
numbers (truncating floats toward zero) and integer-literal strings, and
raises (`none`) on null, arrays and objects. -/
def pyInt : JsonVal → Option Int
  | .jbool b => some (if b then 1 else 0)
  | .jnum q => some (ratTrunc q)
  | .jstr s => pyIntOfStr s
  | _ => none

/-- A turn of the output: `[speaker_letter, text]` or `null`. -/
abbrev Turn := Option (String × String)

/-- The accumulated post map `post_number -> (author_token, post_text)`
returned by `scrape_thread_posts`, as a lookup function. -/
abbrev PostMap := Int → Option (String × String)

/-- The per-chain loop of `main` (lines 287-307): for each chain entry, try
integer parse (failure → null turn, miss+1); look up the post map (absence →
null turn, miss+1); otherwise assign the speaker for the author token FIRST,
then clean the text; empty cleaned text → null turn, miss+1; else emit
`[speaker, text]`.  Returns (turns, miss count, final speaker map). -/
def processChain (posts : PostMap) : List JsonVal → SMap → List Turn × Nat × SMap
  | [], m => ([], 0, m)
  | cid :: rest, m =>
    match pyInt cid with
    | none =>
      let r := processChain posts rest m
      (none :: r.1, r.2.1 + 1, r.2.2)
    | some n =>
      match posts n with
      | none =>
        let r := processChain posts rest m
        (none :: r.1, r.2.1 + 1, r.2.2)
      | some (author, rawTxt) =>
        let s := _assign_speaker author m
        let txt := _clean_text rawTxt
        if txt = "" then
          let r := processChain posts rest s.2
          (none :: r.1, r.2.1 + 1, r.2.2)
        else
          let r := processChain posts rest s.2
          (some (s.1, txt) :: r.1, r.2.1, r.2.2)

/-- The dialogues loop of `main` (lines 280-310): chains that are not lists
are skipped entirely; each list chain is processed with the speaker map
threaded through; per dialogue the pair `(n_turns, n_missing)` is recorded
with `n_turns = len(chain)`.  Returns (rehydrated dialogues, missing stats,
final speaker map). -/
def processDialogues (posts : PostMap) :
    List (String × JsonVal) → SMap →
    List (String × List Turn) × List (String × Nat × Nat) × SMap
  | [], m => ([], [], m)
  | (did, .jarr chain) :: rest, m =>
    let r := processChain posts chain m
    let rs := processDialogues posts rest r.2.2
    ((did, r.1) :: rs.1, (did, chain.length, r.2.1) :: rs.2.1, rs.2.2)
  | (_, _) :: rest, m => processDialogues posts rest m

/-- An `<a>` element as `_find_next_url` inspects it: whether it carries the
`rel="next"` relation, its visible text (`get_text(" ", strip=True)`), and
its `href` attribute (absent or a string). -/
structure Anchor where
  relNext : Bool
  text : String
  href : Option String
deriving DecidableEq

/-- Python truthiness of `a.get("href")`: present and non-empty. -/
def hrefTruthy (a : Anchor) : Bool :=
  match a.href with
  | some h => !(h == "")
  | none => false

/-- `_normalize_href` (lines 138-144): `None` on empty or whitespace-only
href, otherwise `urljoin(base_url, href.strip())`.  `urljoin` is a Python
standard-library function external to the repository, abstracted as the
oracle `joinUrl`. -/
def _normalize_href (joinUrl : String → String → String) (base href : String) :
    Option String :=
  if href = "" then none
  else
    let h := pyStrip href
    if h = "" then none else some (joinUrl base h)

/-- Python `path.rstrip("/")`. -/
def rstripSlash (s : String) : String :=
  ⟨(s.data.reverse.dropWhile (fun c => c = '/')).reverse⟩

/-- `re.search(r"/(\d+)$", p)`: the path ends in a digit run immediately
preceded by a slash; returns that trailing number. -/
def trailingNum (p : String) : Option Nat :=
  let r := p.data.reverse
  let ds := r.takeWhile Char.isDigit
  if ds.isEmpty then none
  else
    match r.dropWhile Char.isDigit with
    | '/' :: _ => some (digitsToNat ds.reverse)
    | _ => none

/-- Python `str.lower()` restricted to ASCII. -/
def pyLower (s : String) : String := ⟨s.data.map Char.toLower⟩

/-- The `candidates` dict built by `_find_next_url`'s fallback (lines
176-189): for each anchor with a non-empty href that normalizes to an
absolute URL whose path ends in `/<digits>`, record `(page, url)`, in
anchor order.  `urlparse(u).path` is abstracted as the oracle `pathOf`. -/
def pageCandidates (joinUrl : String → String → String) (pathOf : String → String)
    (current : String) : List Anchor → List (Nat × String)
  | [] => []
  | a :: rest =>
    let tail := pageCandidates joinUrl pathOf current rest
    match a.href with
    | none => tail
    | some h =>
      if h = "" then tail
      else
        match _normalize_href joinUrl current h with
        | none => tail
        | some absu =>
          match trailingNum (rstripSlash (pathOf absu)) with
          | none => tail
          | some page => (page, absu) :: tail

/-- Lookup in the `candidates` dict: Python dict assignment overwrites, so
the binding of a page number is the LAST pair recorded for it. -/
def lookupLast (l : List (Nat × String)) (k : Nat) : Option String :=
  (l.reverse.find? (fun p => p.1 == k)).map (·.2)

/-- Tier 3 of `_find_next_url` (lines 171-200): current page number is the
trailing integer of the current URL's path (1 if absent); among candidate
page numbers strictly greater, pick the smallest (`sorted(...)[0]` of a
non-empty list is its minimum) and return its URL; else no next page. -/
def findNextFallback (joinUrl : String → String → String) (pathOf : String → String)
    (current : String) (anchors : List Anchor) : Option String :=
  let curPage := (trailingNum (rstripSlash (pathOf current))).getD 1
  let candidates := pageCandidates joinUrl pathOf current anchors
  match ((candidates.map (·.1)).filter (fun p => curPage < p)).min? with
  | some p => lookupLast candidates p
  | none => none

/-- Tier 2 of `_find_next_url` (lines 163-169): the first anchor whose
lowercased visible text is "siguiente" and whose href is truthy returns its
normalized href (which the function returns even when normalization yields
`None`); otherwise fall through to the fallback tier. -/
def findNextTier2 (joinUrl : String → String → String) (pathOf : String → String)
    (current : String) (anchors : List Anchor) : Option String :=
  match anchors.find? (fun a => pyLower a.text == "siguiente" && hrefTruthy a) with
  | some a => _normalize_href joinUrl current (a.href.getD "")
  | none => findNextFallback joinUrl pathOf current anchors

/-- `_find_next_url` (lines 147-200).  Tier 1: `soup.find("a", rel="next")`
is the first anchor with the next relation; if it has a truthy href its
normalized href is returned (even when normalization yields `None`),
otherwise control falls through to tier 2. -/
def _find_next_url (joinUrl : String → String → String) (pathOf : String → String)
    (current : String) (anchors : List Anchor) : Option String :=
  match anchors.find? (fun a => a.relNext) with
  | some a =>
    match a.href with
    | some h =>
      if h = "" then findNextTier2 joinUrl pathOf current anchors
      else _normalize_href joinUrl current h
    | none => findNextTier2 joinUrl pathOf current anchors
  | none => findNextTier2 joinUrl pathOf current anchors

/-- The crawl loop of `scrape_thread_posts` (lines 220-240), abstracted over
the page-to-next-URL behaviour `next` (the composite of fetching a page and
running `_find_next_url` on it).  `remaining` is `max_pages - pages`, so the
loop guard `pages < max_pages` is `remaining > 0`; the loop stops when the
URL is `None`, already in `seen`, or the cap is reached.  Returns the list
of URLs fetched, in order. -/
def crawlLoop (next : String → Option String) :
    Option String → List String → Nat → List String
  | _, _, 0 => []
  | none, _, _ => []
  | some u, seen, remaining + 1 =>
    if u ∈ seen then []
    else u :: crawlLoop next (next u) (u :: seen) remaining

/-- The URLs fetched by `scrape_thread_posts` for a given start URL and page
cap: the crawl starts at `thread_url` with an empty `seen` set. -/
def scrapeTrace (next : String → Option String) (maxPages : Nat)
    (threadUrl : String) : List String :=
  crawlLoop next (some threadUrl) [] maxPages

/-- `obj.get(k)` on the parsed top-level JSON object. -/
def getKey (obj : List (String × JsonVal)) (k : String) : Option JsonVal :=
  (obj.find? (fun p => p.1 == k)).map (·.2)

/-- The fields of the output document that depend on the computation (the
remaining fields of `out` are constants or pass-throughs). -/
structure MainOut where
  thread_url : String
  dialogues : List (String × List Turn)
  missing : List (String × Nat × Nat)

/-- `main` after argument parsing (lines 254-327): read `thread_url` and
`dialogues` from the input object; raise (`Except.error`) if `thread_url`
is not a string or is blank, then if `dialogues` is not a dict — both
before `scrape_thread_posts` runs; otherwise crawl (abstracted as the
oracle `crawl` from the thread URL to the accumulated post map), process
the dialogues with an initially empty speaker map, and write the output. -/
def mainModel (crawl : String → PostMap) (obj : List (String × JsonVal)) :
    Except String MainOut :=
  let tu := getKey obj "thread_url"
  let dl := getKey obj "dialogues"
  match tu with
  | some (.jstr s) =>
    if pyStrip s = "" then
      .error "Missing thread_url in dehydrated input. Rehydration is not possible."
    else
      match dl with
      | some (.jobj d) =>
        let posts := crawl s
        let r := processDialogues posts d []
        .ok { thread_url := s, dialogues := r.1, missing := r.2.1 }
      | _ => .error "Missing dialogues dict in dehydrated input."
  | _ => .error "Missing thread_url in dehydrated input. Rehydration is not possible."

/-- Decoder for the letter strings produced by `idxLoop` (least-significant
digit first), used to show the bijective base-26 encoding is injective. -/
def decodeLetters : List Char → Nat
  | [] => 0
  | [c] => c.toNat - 65
  | c :: d :: rest => c.toNat - 65 + 26 * (decodeLetters (d :: rest) + 1)

/-- Present a sequence of raw author tokens to `_assign_speaker` in order,
threading the map; returns the labels in presentation order and the final
map.  This is the "fixed order of first appearance" scenario of the spec. -/
def runAssign : List String → SMap → List String × SMap
  | [], m => ([], m)
  | t :: ts, m =>
    let s := _assign_speaker t m
    let r := runAssign ts s.2
    (s.1 :: r.1, r.2)

/-- Spec-side null-turn condition for one chain entry: integer parse fails,
or the post is absent, or its cleaned text is empty. -/
def missEntry (posts : PostMap) (v : JsonVal) : Bool :=
  match pyInt v with
  | none => true
  | some n =>
    match posts n with
    | none => true
    | some (_, txt) => _clean_text txt == ""

/-- A string is a label of the bijective base-26 speaker encoding. -/
def inLetters (s : String) : Prop := ∃ i, s = _index_to_letters i

/-- Spec-side fatal condition on `thread_url`: missing, not a string, or
blank after stripping. -/
def badThreadUrl (obj : List (String × JsonVal)) : Bool :=
  match getKey obj "thread_url" with
  | some (.jstr s) => pyStrip s == ""
  | _ => true

/-- Spec-side fatal condition on `dialogues`: missing or not a mapping. -/
def badDialogues (obj : List (String × JsonVal)) : Bool :=
  match getKey obj "dialogues" with
  | some (.jobj _) => false
  | _ => true

/-- The post map `{5: ("alice", "hello")}` of the spec's worked example. -/
def ex1Posts : PostMap := fun n => if n = 5 then some ("alice", "hello") else none

/-- A post map whose single post has whitespace-only text. -/
def wsPosts : PostMap := fun n => if n = 1 then some ("bob", " ") else none

/-- A post map whose single post has the raw author token "A". -/
def letterAuthorPosts : PostMap := fun n => if n = 1 then some ("A", "hi") else none

/-- The two-page pagination cycle of the spec: page 1 → page 2 → page 1. -/
def cycNext : String → Option String :=
  fun u => if u = "p1" then some "p2" else if u = "p2" then some "p1" else none

/-! ### Properties of the whitespace machinery (`_clean_text`) -/

theorem collapseWs_nil (b : Bool) : collapseWs b [] = [] := by
  cases b <;> rfl

theorem collapseWs_cons_ws (b : Bool) (d : Char) (rest : List Char)
    (hd : isPyWs d = true) :
    collapseWs b (d :: rest) =
      if b then collapseWs true rest else ' ' :: collapseWs true rest := by
  cases b <;> simp [collapseWs, hd]

theorem collapseWs_cons_not_ws (b : Bool) (d : Char) (rest : List Char)
    (hd : isPyWs d = false) :
    collapseWs b (d :: rest) = d :: collapseWs false rest := by
  cases b <;> simp [collapseWs, hd]

theorem normNewlines_cons_ne (d : Char) (rest : List Char) (hd : d ≠ '\r') :
    normNewlines (d :: rest) = d :: normNewlines rest := by
  cases rest <;> simp [normNewlines, hd]

theorem mem_collapseWs_ws_eq_space :
    ∀ (l : List Char) (b : Bool) (c : Char),
      c ∈ collapseWs b l → isPyWs c = true → c = ' ' := by
  intro l
  induction l with
  | nil => intro b c h _; rw [collapseWs_nil] at h; simp at h
  | cons d rest ih =>
    intro b c h hws
    cases hd : isPyWs d with
    | true =>
      rw [collapseWs_cons_ws b d rest hd] at h
      cases b with
      | true => exact ih true c (by simpa using h) hws
      | false =>
        rcases List.mem_cons.mp (by simpa using h) with h' | h'
        · exact h'
        · exact ih true c h' hws
    | false =>
      rw [collapseWs_cons_not_ws b d rest hd] at h
      rcases List.mem_cons.mp h with h' | h'
      · subst h'
        rw [hd] at hws
        exact Bool.noConfusion hws
      · exact ih false c h' hws

theorem head?_collapseWs_true :
    ∀ (l : List Char) (c : Char),
      (collapseWs true l).head? = some c → isPyWs c = false := by
  intro l
  induction l with
  | nil => intro c h; rw [collapseWs_nil] at h; exact Option.noConfusion h
  | cons d rest ih =>
    intro c h
    cases hd : isPyWs d with
    | true =>
      rw [collapseWs_cons_ws true d rest hd, if_pos rfl] at h
      exact ih c h
    | false =>
      rw [collapseWs_cons_not_ws true d rest hd] at h
      simp only [List.head?_cons, Option.some.injEq] at h
      subst h
      exact hd

theorem chain'_collapseWs (l : List Char) :
    ∀ b, List.Chain' (fun a c => ¬(isPyWs a = true ∧ isPyWs c = true))
      (collapseWs b l) := by
  induction l with
  | nil => intro b; rw [collapseWs_nil]; exact List.chain'_nil
  | cons d rest ih =>
    intro b
    cases hd : isPyWs d with
    | true =>
      rw [collapseWs_cons_ws b d rest hd]
      cases b with
      | true => simpa using ih true
      | false =>
        simp only [Bool.false_eq_true, if_false]
        rw [List.chain'_cons']
        refine ⟨?_, ih true⟩
        intro y hy
        have hy' : isPyWs y = false :=
          head?_collapseWs_true rest y (Option.mem_def.mp hy)
        simp [hy']
    | false =>
      rw [collapseWs_cons_not_ws b d rest hd]
      rw [List.chain'_cons']
      refine ⟨?_, ih false⟩
      intro y _
      simp [hd]

theorem collapseWs_eq_self :
    ∀ (l : List Char) (b : Bool),
      (∀ c ∈ l, isPyWs c = true → c = ' ') →
      List.Chain' (fun a c => ¬(isPyWs a = true ∧ isPyWs c = true)) l →
      (b = true → ∀ c, l.head? = some c → isPyWs c = false) →
      collapseWs b l = l := by
  intro l
  induction l with
  | nil => intro b _ _ _; exact collapseWs_nil b
  | cons d rest ih =>
    intro b hsp hch hhd
    cases hd : isPyWs d with
    | true =>
      have hd' : d = ' ' := hsp d (List.mem_cons_self d rest) hd
      cases b with
      | true =>
        have h0 := hhd rfl d rfl
        rw [hd] at h0
        exact Bool.noConfusion h0
      | false =>
        rw [collapseWs_cons_ws false d rest hd]
        simp only [Bool.false_eq_true, if_false]
        have htail : collapseWs true rest = rest := by
          refine ih true (fun c hc => hsp c (List.mem_cons_of_mem _ hc))
            ((List.chain'_cons'.mp hch).2) ?_
          intro _ c hc
          have hR := (List.chain'_cons'.mp hch).1 c (Option.mem_def.mpr hc)
          cases hcw : isPyWs c with
          | false => rfl
          | true => exact absurd ⟨hd, hcw⟩ hR
        rw [htail, hd']
    | false =>
      rw [collapseWs_cons_not_ws b d rest hd]
      have htail : collapseWs false rest = rest :=
        ih false (fun c hc => hsp c (List.mem_cons_of_mem _ hc))
          ((List.chain'_cons'.mp hch).2) (fun h => Bool.noConfusion h)
      rw [htail]

theorem normNewlines_eq_self (l : List Char) (h : '\r' ∉ l) :
    normNewlines l = l := by
  induction l with
  | nil => rfl
  | cons d rest ih =>
    have hd : d ≠ '\r' := fun e => h (e ▸ List.mem_cons_self d rest)
    have hrest : '\r' ∉ rest := fun m => h (List.mem_cons_of_mem _ m)
    rw [normNewlines_cons_ne d rest hd, ih hrest]

theorem dropWhile_eq_self_of_head {α : Type} (p : α → Bool) (l : List α)
    (h : ∀ c, l.head? = some c → p c = false) : l.dropWhile p = l := by
  cases l with
  | nil => rfl
  | cons d rest =>
    rw [List.dropWhile_cons, h d rfl]
    simp

theorem head?_dropWhile {α : Type} (p : α → Bool) (l : List α) :
    ∀ c, (l.dropWhile p).head? = some c → p c = false := by
  induction l with
  | nil => intro c h; simp at h
  | cons d rest ih =>
    intro c h
    rw [List.dropWhile_cons] at h
    by_cases hd : p d = true
    · rw [if_pos hd] at h
      exact ih c h
    · rw [if_neg hd] at h
      simp only [List.head?_cons, Option.some.injEq] at h
      subst h
      rwa [Bool.not_eq_true] at hd

theorem stripChars_isInfix (l : List Char) : stripChars l <:+: l := by
  unfold stripChars
  have h1 : l.dropWhile isPyWs <:+ l := List.dropWhile_suffix _
  have h2 : (l.dropWhile isPyWs).reverse.dropWhile isPyWs <:+
      (l.dropWhile isPyWs).reverse := List.dropWhile_suffix _
  have h3 : ((l.dropWhile isPyWs).reverse.dropWhile isPyWs).reverse <+:
      l.dropWhile isPyWs := by
    rw [← List.reverse_suffix]
    simpa using h2
  exact h3.isInfix.trans h1.isInfix

theorem mem_stripChars {c : Char} {l : List Char} (h : c ∈ stripChars l) :
    c ∈ l :=
  (stripChars_isInfix l).sublist.subset h

theorem head?_stripChars (l : List Char) :
    ∀ c, (stripChars l).head? = some c → isPyWs c = false := by
  intro c h
  unfold stripChars at h
  rw [List.head?_reverse] at h
  have hz : (l.dropWhile isPyWs).reverse.dropWhile isPyWs <:+
      (l.dropWhile isPyWs).reverse := List.dropWhile_suffix _
  obtain ⟨t, ht⟩ := hz
  have hne : (l.dropWhile isPyWs).reverse.dropWhile isPyWs ≠ [] := by
    intro e
    rw [e] at h
    simp at h
  have hlast : (l.dropWhile isPyWs).reverse.getLast? = some c := by
    rw [← ht, List.getLast?_append_of_ne_nil _ hne]
    exact h
  rw [List.getLast?_reverse] at hlast
  exact head?_dropWhile _ _ c hlast

theorem getLast?_stripChars (l : List Char) :
    ∀ c, (stripChars l).getLast? = some c → isPyWs c = false := by
  intro c h
  unfold stripChars at h
  rw [List.getLast?_reverse] at h
  exact head?_dropWhile _ _ c h

theorem stripChars_eq_self (l : List Char)
    (h1 : ∀ c, l.head? = some c → isPyWs c = false)
    (h2 : ∀ c, l.getLast? = some c → isPyWs c = false) :
    stripChars l = l := by
  unfold stripChars
  rw [dropWhile_eq_self_of_head _ _ h1]
  rw [dropWhile_eq_self_of_head _ _
    (fun c hc => h2 c (by rwa [List.head?_reverse] at hc))]
  exact List.reverse_reverse l

/-- Claim C8: applying the whitespace-normalization cleaning function twice
yields the same result as applying it once: for every input string `s`,
`_clean_text (_clean_text s) = _clean_text s`. -/
theorem clean_text_idempotent (s : String) :
    _clean_text (_clean_text s) = _clean_text s := by
  set y := stripChars (collapseWs false (normNewlines s.data)) with hy
  have hsp : ∀ c ∈ y, isPyWs c = true → c = ' ' := fun c hc hw =>
    mem_collapseWs_ws_eq_space _ false c (mem_stripChars hc) hw
  have hcr : '\r' ∉ y := by
    intro hm
    have h1 : ('\r' : Char) = ' ' := hsp _ hm (by decide)
    exact absurd h1 (by decide)
  have hch : List.Chain' (fun a c => ¬(isPyWs a = true ∧ isPyWs c = true)) y :=
    List.Chain'.infix (chain'_collapseWs (normNewlines s.data) false)
      (stripChars_isInfix _)
  have hcoll : collapseWs false y = y :=
    collapseWs_eq_self y false hsp hch (fun h => Bool.noConfusion h)
  have hstrip : stripChars y = y :=
    stripChars_eq_self y (head?_stripChars _) (getLast?_stripChars _)
  show (⟨stripChars (collapseWs false (normNewlines y))⟩ : String) = (⟨y⟩ : String)
  rw [normNewlines_eq_self y hcr, hcoll, hstrip]

/-! ### The bijective base-26 encoding is injective -/

theorem char_ofNat_letter_toNat :
    ∀ d : Fin 26, (Char.ofNat (65 + d.val)).toNat = 65 + d.val := by decide

theorem idxLoop_ne_nil (fuel i : Nat) : idxLoop (fuel + 1) i ≠ [] := by
  simp only [idxLoop]
  by_cases hq : i / 26 = 0 <;> simp [hq]

theorem idxLoop_fuel_eq :
    ∀ (f₁ : Nat) {f₂ i : Nat}, i < f₁ → i < f₂ → idxLoop f₁ i = idxLoop f₂ i := by
  intro f₁
  induction f₁ with
  | zero => intro f₂ i h1 _; exact absurd h1 (Nat.not_lt_zero i)
  | succ f ih =>
    intro f₂ i h1 h2
    cases f₂ with
    | zero => exact absurd h2 (Nat.not_lt_zero i)
    | succ g =>
      simp only [idxLoop]
      by_cases hq : i / 26 = 0
      · simp [hq]
      · rw [if_neg hq, if_neg hq]
        congr 1
        have hdiv : i / 26 < i := Nat.div_lt_self (by omega) (by omega)
        exact ih (by omega) (by omega)

theorem decode_idxLoop :
    ∀ (fuel i : Nat), i < fuel → decodeLetters (idxLoop fuel i) = i := by
  intro fuel
  induction fuel with
  | zero => intro i h; exact absurd h (Nat.not_lt_zero i)
  | succ f ih =>
    intro i h
    simp only [idxLoop]
    by_cases hq : i / 26 = 0
    · rw [if_pos hq]
      have hrem : i % 26 < 26 := Nat.mod_lt _ (by omega)
      have hchar : (Char.ofNat (65 + i % 26)).toNat = 65 + i % 26 :=
        char_ofNat_letter_toNat ⟨i % 26, hrem⟩
      simp only [decodeLetters, hchar]
      omega
    · rw [if_neg hq]
      have hdiv : i / 26 < i := Nat.div_lt_self (by omega) (by omega)
      have hlt : i / 26 - 1 < f := by omega
      obtain ⟨f', rfl⟩ : ∃ f', f = f' + 1 := ⟨f - 1, by omega⟩
      obtain ⟨d, L, hdl⟩ :=
        List.exists_cons_of_ne_nil (idxLoop_ne_nil f' (i / 26 - 1))
      rw [hdl]
      simp only [decodeLetters]
      rw [← hdl, ih (i / 26 - 1) hlt]
      have hrem : i % 26 < 26 := Nat.mod_lt _ (by omega)
      have hchar : (Char.ofNat (65 + i % 26)).toNat = 65 + i % 26 :=
        char_ofNat_letter_toNat ⟨i % 26, hrem⟩
      rw [hchar]
      omega

theorem index_to_letters_injective : Function.Injective _index_to_letters := by
  intro i j h
  unfold _index_to_letters at h
  have hdata : (idxLoop (i + 1) i).reverse = (idxLoop (j + 1) j).reverse := by
    injection h
  have hlists : idxLoop (i + 1) i = idxLoop (j + 1) j :=
    List.reverse_inj.mp hdata
  have hi := decode_idxLoop (i + 1) i (Nat.lt_succ_self i)
  rw [hlists, decode_idxLoop (j + 1) j (Nat.lt_succ_self j)] at hi
  exact hi.symm

/-! ### Speaker assignment: label sequence on distinct tokens -/

theorem lookupS_append_none (m : SMap) {a lab k : String}
    (h1 : lookupS m k = none) (h2 : k ≠ a) :
    lookupS (m ++ [(a, lab)]) k = none := by
  unfold lookupS at h1 ⊢
  rw [List.find?_append]
  cases hf : m.find? (fun p => p.1 == k) with
  | some p => simp [hf] at h1
  | none =>
    have hak : (a == k) = false := beq_eq_false_iff_ne.mpr (Ne.symm h2)
    simp [List.find?_cons, hak]

theorem runAssign_labels :
    ∀ (ts : List String) (m : SMap),
      (∀ t ∈ ts, lookupS m (normTok t) = none) →
      (ts.map normTok).Nodup →
      (runAssign ts m).1 =
        (List.range ts.length).map (fun j => _index_to_letters (m.length + j)) ∧
      (runAssign ts m).2.length = m.length + ts.length := by
  intro ts
  induction ts with
  | nil => intro m _ _; exact ⟨rfl, rfl⟩
  | cons t ts ih =>
    intro m hlk hnd
    have hnone : lookupS m (normTok t) = none := hlk t (List.mem_cons_self _ _)
    have hassign : _assign_speaker t m =
        (_index_to_letters m.length,
          m ++ [(normTok t, _index_to_letters m.length)]) := by
      simp [_assign_speaker, hnone]
    rw [List.map_cons] at hnd
    have hcons := List.nodup_cons.mp hnd
    have hlk' : ∀ u ∈ ts,
        lookupS (m ++ [(normTok t, _index_to_letters m.length)]) (normTok u) = none := by
      intro u hu
      refine lookupS_append_none m (hlk u (List.mem_cons_of_mem _ hu)) ?_
      intro e
      exact hcons.1 (e ▸ List.mem_map_of_mem normTok hu)
    obtain ⟨ih1, ih2⟩ := ih _ hlk' hcons.2
    have hlen : (m ++ [(normTok t, _index_to_letters m.length)]).length =
        m.length + 1 := by simp
    rw [hlen] at ih1 ih2
    have hstep1 : (runAssign (t :: ts) m).1 =
        _index_to_letters m.length ::
          (runAssign ts (m ++ [(normTok t, _index_to_letters m.length)])).1 := by
      simp [runAssign, hassign]
    have hstep2 : (runAssign (t :: ts) m).2 =
        (runAssign ts (m ++ [(normTok t, _index_to_letters m.length)])).2 := by
      simp [runAssign, hassign]
    constructor
    · rw [hstep1, ih1,
        show (t :: ts).length = ts.length + 1 from rfl,
        List.range_succ_eq_map, List.map_cons, List.map_map]
      refine congrArg₂ List.cons ?_ ?_
      · show _index_to_letters m.length = _index_to_letters (m.length + 0)
        rw [Nat.add_zero]
      · refine List.map_congr_left ?_
        intro j _
        show _index_to_letters (m.length + 1 + j) =
          _index_to_letters (m.length + (j + 1))
        exact congrArg _index_to_letters (by omega)
    · rw [hstep2, ih2]
      simp only [List.length_cons]
      omega

/-- Claim C1: presenting a sequence of tokens with pairwise-distinct
normalized forms to `_assign_speaker`, starting from the empty map, assigns
exactly the first N values of the bijective base-26 sequence (index 0 → "A",
25 → "Z", 26 → "AA", ...), in presentation order, with no repeats. -/
theorem speaker_label_bijection (ts : List String)
    (hnd : (ts.map normTok).Nodup) :
    (runAssign ts []).1 = (List.range ts.length).map _index_to_letters ∧
    ((runAssign ts []).1).Nodup := by
  obtain ⟨h1, _⟩ := runAssign_labels ts [] (fun t _ => rfl) hnd
  have h1' : (runAssign ts []).1 =
      (List.range ts.length).map _index_to_letters := by
    rw [h1]
    refine List.map_congr_left ?_
    intro j _
    simp
  refine ⟨h1', ?_⟩
  rw [h1']
  exact List.Nodup.map index_to_letters_injective (List.nodup_range _)

/-- Witness for the C1 theorem at the token list ["alice", "bob", "carol"]. -/
theorem speaker_label_bijection_witness :
    ((["alice", "bob", "carol"].map normTok).Nodup) ∧
    ((runAssign ["alice", "bob", "carol"] []).1 =
        (List.range 3).map _index_to_letters ∧
      ((runAssign ["alice", "bob", "carol"] []).1).Nodup) :=
  ⟨by decide, speaker_label_bijection ["alice", "bob", "carol"] (by decide)⟩

/-- Claim C9: the speaker anonymizer strips surrounding whitespace from the
raw author token before lookup — tokens equal after stripping are treated
identically — and empty or whitespace-only tokens are replaced by the fixed
sentinel "__unknown__", so they all share the sentinel's label. -/
theorem assign_speaker_strips (t₁ t₂ : String) (m : SMap)
    (h : pyStrip t₁ = pyStrip t₂) :
    _assign_speaker t₁ m = _assign_speaker t₂ m ∧
    (∀ t, pyStrip t = "" → normTok t = "__unknown__") ∧
    (∀ t, pyStrip t = "" → _assign_speaker t m = _assign_speaker "__unknown__" m) := by
  have hnorm : ∀ a b : String, pyStrip a = pyStrip b → normTok a = normTok b := by
    intro a b hab
    unfold normTok
    rw [hab]
  refine ⟨?_, ?_, ?_⟩
  · unfold _assign_speaker
    rw [hnorm t₁ t₂ h]
  · intro t ht
    simp [normTok, ht]
  · intro t ht
    have h1 : normTok t = "__unknown__" := by simp [normTok, ht]
    have h2 : normTok "__unknown__" = "__unknown__" := by decide
    unfold _assign_speaker
    rw [h1, h2]

/-- Witness for the C9 theorem at "alice" and "  alice  ". -/
theorem assign_speaker_strips_witness :
    pyStrip "alice" = pyStrip "  alice  " ∧
    (_assign_speaker "alice" [] = _assign_speaker "  alice  " [] ∧
      (∀ t, pyStrip t = "" → normTok t = "__unknown__") ∧
      (∀ t, pyStrip t = "" →
        _assign_speaker t [] = _assign_speaker "__unknown__" [])) :=
  ⟨by decide, assign_speaker_strips "alice" "  alice  " [] (by decide)⟩

/-! ### Unfolding equations for the per-chain loop -/

theorem processChain_nil (posts : PostMap) (m : SMap) :
    processChain posts [] m = ([], 0, m) := rfl

theorem processChain_cons_miss_parse (posts : PostMap) (cid : JsonVal)
    (rest : List JsonVal) (m : SMap) (h : pyInt cid = none) :
    processChain posts (cid :: rest) m =
      (none :: (processChain posts rest m).1,
       (processChain posts rest m).2.1 + 1,
       (processChain posts rest m).2.2) := by
  simp [processChain, h]

theorem processChain_cons_miss_absent (posts : PostMap) (cid : JsonVal)
    (rest : List JsonVal) (m : SMap) (n : Int)
    (h1 : pyInt cid = some n) (h2 : posts n = none) :
    processChain posts (cid :: rest) m =
      (none :: (processChain posts rest m).1,
       (processChain posts rest m).2.1 + 1,
       (processChain posts rest m).2.2) := by
  simp [processChain, h1, h2]

theorem processChain_cons_empty (posts : PostMap) (cid : JsonVal)
    (rest : List JsonVal) (m : SMap) (n : Int) (a txt : String)
    (h1 : pyInt cid = some n) (h2 : posts n = some (a, txt))
    (h3 : _clean_text txt = "") :
    processChain posts (cid :: rest) m =
      (none :: (processChain posts rest (_assign_speaker a m).2).1,
       (processChain posts rest (_assign_speaker a m).2).2.1 + 1,
       (processChain posts rest (_assign_speaker a m).2).2.2) := by
  simp [processChain, h1, h2, h3]

theorem processChain_cons_hit (posts : PostMap) (cid : JsonVal)
    (rest : List JsonVal) (m : SMap) (n : Int) (a txt : String)
    (h1 : pyInt cid = some n) (h2 : posts n = some (a, txt))
    (h3 : _clean_text txt ≠ "") :
    processChain posts (cid :: rest) m =
      (some ((_assign_speaker a m).1, _clean_text txt) ::
         (processChain posts rest (_assign_speaker a m).2).1,
       (processChain posts rest (_assign_speaker a m).2).2.1,
       (processChain posts rest (_assign_speaker a m).2).2.2) := by
  simp [processChain, h1, h2, h3]

theorem processChain_length (posts : PostMap) :
    ∀ (chain : List JsonVal) (m : SMap),
      (processChain posts chain m).1.length = chain.length := by
  intro chain
  induction chain with
  | nil => intro m; rfl
  | cons cid rest ih =>
    intro m
    cases h1 : pyInt cid with
    | none => rw [processChain_cons_miss_parse posts cid rest m h1]; simp [ih]
    | some n =>
      cases h2 : posts n with
      | none => rw [processChain_cons_miss_absent posts cid rest m n h1 h2]; simp [ih]
      | some p =>
        obtain ⟨a, txt⟩ := p
        by_cases h3 : _clean_text txt = ""
        · rw [processChain_cons_empty posts cid rest m n a txt h1 h2 h3]; simp [ih]
        · rw [processChain_cons_hit posts cid rest m n a txt h1 h2 h3]; simp [ih]

theorem processChain_isNone_map (posts : PostMap) :
    ∀ (chain : List JsonVal) (m : SMap),
      (processChain posts chain m).1.map Option.isNone =
        chain.map (missEntry posts) := by
  intro chain
  induction chain with
  | nil => intro m; rfl
  | cons cid rest ih =>
    intro m
    cases h1 : pyInt cid with
    | none =>
      rw [processChain_cons_miss_parse posts cid rest m h1]
      simp [missEntry, h1, ih]
    | some n =>
      cases h2 : posts n with
      | none =>
        rw [processChain_cons_miss_absent posts cid rest m n h1 h2]
        simp [missEntry, h1, h2, ih]
      | some p =>
        obtain ⟨a, txt⟩ := p
        by_cases h3 : _clean_text txt = ""
        · rw [processChain_cons_empty posts cid rest m n a txt h1 h2 h3]
          simp [missEntry, h1, h2, h3, ih]
        · rw [processChain_cons_hit posts cid rest m n a txt h1 h2 h3]
          simp [missEntry, h1, h2, h3, ih]

theorem processChain_miss_eq_countP (posts : PostMap) :
    ∀ (chain : List JsonVal) (m : SMap),
      (processChain posts chain m).2.1 =
        (processChain posts chain m).1.countP (fun t => t.isNone) := by
  intro chain
  induction chain with
  | nil => intro m; rfl
  | cons cid rest ih =>
    intro m
    cases h1 : pyInt cid with
    | none =>
      rw [processChain_cons_miss_parse posts cid rest m h1]
      simp [List.countP_cons, ih]
    | some n =>
      cases h2 : posts n with
      | none =>
        rw [processChain_cons_miss_absent posts cid rest m n h1 h2]
        simp [List.countP_cons, ih]
      | some p =>
        obtain ⟨a, txt⟩ := p
        by_cases h3 : _clean_text txt = ""
        · rw [processChain_cons_empty posts cid rest m n a txt h1 h2 h3]
          simp [List.countP_cons, ih]
        · rw [processChain_cons_hit posts cid rest m n a txt h1 h2 h3]
          simp [List.countP_cons, ih]

/-- Claim C2: for every post map, chain and speaker-map state, the output
turn sequence has exactly as many elements as the chain, in the same
positions; position j is null exactly when that entry fails integer
parsing, is absent from the post map, or has empty cleaned text; the miss
count equals the number of nulls, and the recorded `n_turns` equals the
chain length.  In particular, for `{5: ("alice", "hello")}` and chain
`[5, 6, "x"]` the output is `[["A","hello"], null, null]` with 2 misses
over 3 turns. -/
theorem chain_order_and_null_conditions (posts : PostMap)
    (chain : List JsonVal) (m : SMap) (did : String) :
    (processChain posts chain m).1.length = chain.length ∧
    (processChain posts chain m).1.map Option.isNone =
      chain.map (missEntry posts) ∧
    (processChain posts chain m).2.1 =
      (processChain posts chain m).1.countP (fun t => t.isNone) ∧
    (processDialogues posts [(did, .jarr chain)] m).2.1 =
      [(did, chain.length, (processChain posts chain m).2.1)] ∧
    processChain ex1Posts [.jnum 5, .jnum 6, .jstr "x"] [] =
      ([some ("A", "hello"), none, none], 2, [("alice", "A")]) := by
  refine ⟨processChain_length posts chain m,
    processChain_isNone_map posts chain m,
    processChain_miss_eq_countP posts chain m, ?_, by decide⟩
  simp [processDialogues]

/-- Counterexample to claim C4 as stated: for the post map
`{1: ("bob", " ")}` (whitespace-only text) and chain `[1]`, the turn is
null and the miss count is 1, but the speaker map is NOT left unchanged —
it grows from `[]` to `[("bob", "A")]`, because `main` calls
`_assign_speaker` before the empty-text check. -/
theorem speaker_on_empty_text_cex :
    processChain wsPosts [.jnum 1] [] = ([none], 1, [("bob", "A")]) ∧
    ([("bob", "A")] : SMap) ≠ [] :=
  ⟨by decide, by decide⟩

/-- Amended claim C4: in the per-ID processing, once the ID parses and the
post is found, the speaker letter is assigned/retrieved BEFORE the cleaned
text is inspected; when the cleaned text is empty the turn is null and the
miss count is incremented, but the speaker map is the one updated by the
assignment (it grows when the author token is new). -/
theorem speaker_assigned_before_empty_check (posts : PostMap) (cid : JsonVal)
    (rest : List JsonVal) (m : SMap) (n : Int) (a txt : String)
    (h1 : pyInt cid = some n) (h2 : posts n = some (a, txt))
    (h3 : _clean_text txt = "") :
    processChain posts (cid :: rest) m =
      (none :: (processChain posts rest (_assign_speaker a m).2).1,
       (processChain posts rest (_assign_speaker a m).2).2.1 + 1,
       (processChain posts rest (_assign_speaker a m).2).2.2) :=
  processChain_cons_empty posts cid rest m n a txt h1 h2 h3

/-- Witness for the amended C4 theorem at the whitespace-text post map. -/
theorem speaker_assigned_before_empty_check_witness :
    pyInt (JsonVal.jnum 1) = some 1 ∧ wsPosts 1 = some ("bob", " ") ∧
    _clean_text " " = "" ∧
    processChain wsPosts [.jnum 1] [] =
      (none :: (processChain wsPosts [] (_assign_speaker "bob" []).2).1,
       (processChain wsPosts [] (_assign_speaker "bob" []).2).2.1 + 1,
       (processChain wsPosts [] (_assign_speaker "bob" []).2).2.2) :=
  ⟨by decide, by decide, by decide,
    speaker_assigned_before_empty_check wsPosts (.jnum 1) [] [] 1 "bob" " "
      (by decide) (by decide) (by decide)⟩

/-! ### Speaker labels stay in the range of the bijective encoding -/

theorem assign_speaker_inLetters (a : String) (m : SMap)
    (hm : ∀ p ∈ m, inLetters p.2) :
    inLetters (_assign_speaker a m).1 ∧
    ∀ p ∈ (_assign_speaker a m).2, inLetters p.2 := by
  unfold _assign_speaker
  cases hf : lookupS m (normTok a) with
  | some lab =>
    simp only [hf]
    refine ⟨?_, hm⟩
    unfold lookupS at hf
    cases hff : m.find? (fun p => p.1 == normTok a) with
    | none => rw [hff] at hf; exact Option.noConfusion hf
    | some p =>
      rw [hff] at hf
      have hp2 : p.2 = lab := by simpa using hf
      have hpm := List.mem_of_find?_eq_some hff
      exact hp2 ▸ hm p hpm
  | none =>
    simp only [hf]
    constructor
    · exact ⟨m.length, rfl⟩
    · intro p hp
      rcases List.mem_append.mp hp with h | h
      · exact hm p h
      · simp only [List.mem_singleton] at h
        exact ⟨m.length, by rw [h]⟩

/-- Counterexample to claim C3 as stated: with post map `{1: ("A", "hi")}`
— a post whose raw author token is the string "A" — the emitted turn is
`["A", "hi"]`: its first component is textually identical to the raw
author token stored in the post map, so "no raw author token appears
anywhere in the emitted turn sequences" fails (the text field can likewise
contain raw tokens verbatim). -/
theorem anonymity_cex :
    (processChain letterAuthorPosts [.jnum 1] []).1 = [some ("A", "hi")] ∧
    letterAuthorPosts 1 = some ("A", "hi") :=
  ⟨by decide, by decide⟩

/-- Amended claim C3: for every post map, chain, and speaker-map state
whose values all lie in the range of the bijective base-26 encoding (as
holds for the empty map `main` starts from), every non-null turn's first
component is a label in the range of the encoding — never anything else —
and the final speaker map preserves that invariant.  (The label may still
coincide textually with a raw author token when that token is itself such
a letter string, and post text is emitted verbatim after cleaning.) -/
theorem anonymity_labels_in_range (posts : PostMap) (chain : List JsonVal)
    (m : SMap) (hm : ∀ p ∈ m, inLetters p.2) :
    (∀ t ∈ (processChain posts chain m).1,
      ∀ s txt, t = some (s, txt) → inLetters s) ∧
    (∀ p ∈ (processChain posts chain m).2.2, inLetters p.2) := by
  induction chain generalizing m with
  | nil =>
    refine ⟨?_, hm⟩
    intro t ht
    rw [processChain_nil] at ht
    exact absurd ht (List.not_mem_nil t)
  | cons cid rest ih =>
    cases h1 : pyInt cid with
    | none =>
      rw [processChain_cons_miss_parse posts cid rest m h1]
      obtain ⟨ihT, ihM⟩ := ih m hm
      refine ⟨?_, ihM⟩
      intro t ht s txt he
      rcases List.mem_cons.mp ht with h | h
      · rw [h] at he; exact Option.noConfusion he
      · exact ihT t h s txt he
    | some n =>
      cases h2 : posts n with
      | none =>
        rw [processChain_cons_miss_absent posts cid rest m n h1 h2]
        obtain ⟨ihT, ihM⟩ := ih m hm
        refine ⟨?_, ihM⟩
        intro t ht s txt he
        rcases List.mem_cons.mp ht with h | h
        · rw [h] at he; exact Option.noConfusion he
        · exact ihT t h s txt he
      | some p =>
        obtain ⟨a, txt0⟩ := p
        obtain ⟨hlab, hmap⟩ := assign_speaker_inLetters a m hm
        obtain ⟨ihT, ihM⟩ := ih (_assign_speaker a m).2 hmap
        by_cases h3 : _clean_text txt0 = ""
        · rw [processChain_cons_empty posts cid rest m n a txt0 h1 h2 h3]
          refine ⟨?_, ihM⟩
          intro t ht s txt he
          rcases List.mem_cons.mp ht with h | h
          · rw [h] at he; exact Option.noConfusion he
          · exact ihT t h s txt he
        · rw [processChain_cons_hit posts cid rest m n a txt0 h1 h2 h3]
          refine ⟨?_, ihM⟩
          intro t ht s txt he
          rcases List.mem_cons.mp ht with h | h
          · rw [h] at he
            obtain ⟨hs, _⟩ := Prod.mk.injEq .. ▸ Option.some.inj he
            exact hs ▸ hlab
          · exact ihT t h s txt he

/-- Witness for the amended C3 theorem: empty initial speaker map and the
spec's example post map. -/
theorem anonymity_labels_in_range_witness :
    (∀ p ∈ ([] : SMap), inLetters p.2) ∧
    ((∀ t ∈ (processChain ex1Posts [.jnum 5] []).1,
        ∀ s txt, t = some (s, txt) → inLetters s) ∧
      (∀ p ∈ (processChain ex1Posts [.jnum 5] []).2.2, inLetters p.2)) :=
  ⟨by simp, anonymity_labels_in_range ex1Posts [.jnum 5] [] (by simp)⟩

/-- Claim C10: a chain entry that is a JSON number with a fractional part
is parsed by `int(...)` via truncation toward zero (floor for nonnegative,
ceiling for nonpositive values), so the entry resolves to the post at the
truncated number and yields a non-null turn whenever that post exists with
non-empty cleaned text; e.g. 5.9 resolves to post 5 with no miss. -/
theorem float_ids_truncate :
    (∀ q : ℚ, pyInt (.jnum q) = some (ratTrunc q)) ∧
    (∀ q : ℚ, 0 ≤ q → ratTrunc q = ⌊q⌋) ∧
    (∀ q : ℚ, q ≤ 0 → ratTrunc q = ⌈q⌉) ∧
    (∀ (posts : PostMap) (q : ℚ) (m : SMap) (a txt : String),
      posts (ratTrunc q) = some (a, txt) → _clean_text txt ≠ "" →
      processChain posts [.jnum q] m =
        ([some ((_assign_speaker a m).1, _clean_text txt)], 0,
          (_assign_speaker a m).2)) ∧
    processChain ex1Posts [.jnum (mkRat 59 10)] [] =
      ([some ("A", "hello")], 0, [("alice", "A")]) := by
  have htrunc_floor : ∀ q : ℚ, 0 ≤ q → ratTrunc q = ⌊q⌋ := by
    intro q hq
    rw [Rat.floor_def]
    exact Int.tdiv_eq_ediv (Rat.num_nonneg.mpr hq) (Int.natCast_nonneg _)
  refine ⟨fun q => rfl, htrunc_floor, ?_, ?_, by decide⟩
  · intro q hq
    have hneg : ratTrunc (-q) = ⌊-q⌋ :=
      htrunc_floor (-q) (by simpa using hq)
    have hrt : ratTrunc (-q) = -(ratTrunc q) := by
      unfold ratTrunc
      rw [Rat.neg_num, Rat.neg_den, Int.neg_tdiv]
    rw [hrt, Int.floor_neg] at hneg
    omega
  · intro posts q m a txt h2 h3
    rw [processChain_cons_hit posts (.jnum q) [] m (ratTrunc q) a txt rfl h2 h3]
    rfl

/-- Witness for the C10 theorem at the value 5.9. -/
theorem float_ids_truncate_witness :
    (0 : ℚ) ≤ mkRat 59 10 ∧ ratTrunc (mkRat 59 10) = ⌊(mkRat 59 10 : ℚ)⌋ :=
  ⟨by decide, float_ids_truncate.2.1 (mkRat 59 10) (by decide)⟩

/-! ### Fatal-input guard of `main` -/

theorem mainModel_error_of_bad (obj : List (String × JsonVal))
    (h : (badThreadUrl obj || badDialogues obj) = true) :
    ∃ msg, ∀ crawl : String → PostMap, mainModel crawl obj = .error msg := by
  cases htu : getKey obj "thread_url" with
  | none =>
    refine ⟨"Missing thread_url in dehydrated input. Rehydration is not possible.",
      fun c => ?_⟩
    simp [mainModel, htu]
  | some v =>
    cases v with
    | jstr s =>
      by_cases hs : pyStrip s = ""
      · refine ⟨"Missing thread_url in dehydrated input. Rehydration is not possible.",
          fun c => ?_⟩
        simp [mainModel, htu, hs]
      · have hbt : badThreadUrl obj = false := by simp [badThreadUrl, htu, hs]
        have hbd : badDialogues obj = true := by
          rw [hbt, Bool.false_or] at h
          exact h
        cases hdl : getKey obj "dialogues" with
        | none =>
          refine ⟨"Missing dialogues dict in dehydrated input.", fun c => ?_⟩
          simp [mainModel, htu, hs, hdl]
        | some w =>
          cases w with
          | jobj d =>
            have hf : badDialogues obj = false := by simp [badDialogues, hdl]
            rw [hf] at hbd
            exact Bool.noConfusion hbd
          | jnull =>
            refine ⟨"Missing dialogues dict in dehydrated input.", fun c => ?_⟩
            simp [mainModel, htu, hs, hdl]
          | jbool b =>
            refine ⟨"Missing dialogues dict in dehydrated input.", fun c => ?_⟩
            simp [mainModel, htu, hs, hdl]
          | jnum q =>
            refine ⟨"Missing dialogues dict in dehydrated input.", fun c => ?_⟩
            simp [mainModel, htu, hs, hdl]
          | jstr s2 =>
            refine ⟨"Missing dialogues dict in dehydrated input.", fun c => ?_⟩
            simp [mainModel, htu, hs, hdl]
          | jarr xs =>
            refine ⟨"Missing dialogues dict in dehydrated input.", fun c => ?_⟩
            simp [mainModel, htu, hs, hdl]
    | jnull =>
      refine ⟨"Missing thread_url in dehydrated input. Rehydration is not possible.",
        fun c => ?_⟩
      simp [mainModel, htu]
    | jbool b =>
      refine ⟨"Missing thread_url in dehydrated input. Rehydration is not possible.",
        fun c => ?_⟩
      simp [mainModel, htu]
    | jnum q =>
      refine ⟨"Missing thread_url in dehydrated input. Rehydration is not possible.",
        fun c => ?_⟩
      simp [mainModel, htu]
    | jarr xs =>
      refine ⟨"Missing thread_url in dehydrated input. Rehydration is not possible.",
        fun c => ?_⟩
      simp [mainModel, htu]
    | jobj fs =>
      refine ⟨"Missing thread_url in dehydrated input. Rehydration is not possible.",
        fun c => ?_⟩
      simp [mainModel, htu]

/-- Claim C5: for every input object whose `thread_url` is missing, not a
string, or blank, or whose `dialogues` is not a mapping, the entry point
raises before any network fetch is attempted (the result is an error that
does not depend on the crawl oracle) and no output document is produced. -/
theorem fatal_input_guard (crawl₁ crawl₂ : String → PostMap)
    (obj : List (String × JsonVal))
    (h : (badThreadUrl obj || badDialogues obj) = true) :
    (∃ msg, mainModel crawl₁ obj = .error msg) ∧
    mainModel crawl₁ obj = mainModel crawl₂ obj := by
  obtain ⟨msg, hall⟩ := mainModel_error_of_bad obj h
  exact ⟨⟨msg, hall crawl₁⟩, (hall crawl₁).trans (hall crawl₂).symm⟩

/-- Witness for the C5 theorem at the empty input object. -/
theorem fatal_input_guard_witness :
    (badThreadUrl [] || badDialogues []) = true ∧
    ((∃ msg, mainModel (fun _ _ => none) [] = .error msg) ∧
      mainModel (fun _ _ => none) [] = mainModel (fun _ _ => some ("x", "y")) []) :=
  ⟨by decide, fatal_input_guard (fun _ _ => none) (fun _ _ => some ("x", "y")) []
    (by decide)⟩

/-! ### Crawl loop: page cap and no refetching -/

theorem crawlLoop_zero (next : String → Option String) (url : Option String)
    (seen : List String) : crawlLoop next url seen 0 = [] := by
  cases url <;> rfl

theorem crawlLoop_some_succ (next : String → Option String) (u : String)
    (seen : List String) (r : Nat) :
    crawlLoop next (some u) seen (r + 1) =
      if u ∈ seen then [] else u :: crawlLoop next (next u) (u :: seen) r := rfl

theorem crawlLoop_length_le (next : String → Option String) :
    ∀ (remaining : Nat) (url : Option String) (seen : List String),
      (crawlLoop next url seen remaining).length ≤ remaining := by
  intro remaining
  induction remaining with
  | zero => intro url seen; rw [crawlLoop_zero]; exact Nat.le_refl 0
  | succ r ih =>
    intro url seen
    cases url with
    | none => simp [crawlLoop]
    | some u =>
      rw [crawlLoop_some_succ]
      by_cases hm : u ∈ seen
      · simp [hm]
      · rw [if_neg hm]
        exact Nat.succ_le_succ (ih _ _)

theorem crawlLoop_nodup (next : String → Option String) :
    ∀ (remaining : Nat) (url : Option String) (seen : List String),
      (crawlLoop next url seen remaining).Nodup ∧
      ∀ u ∈ crawlLoop next url seen remaining, u ∉ seen := by
  intro remaining
  induction remaining with
  | zero =>
    intro url seen
    rw [crawlLoop_zero]
    exact ⟨List.nodup_nil, by simp⟩
  | succ r ih =>
    intro url seen
    cases url with
    | none => exact ⟨List.nodup_nil, by simp [crawlLoop]⟩
    | some u =>
      rw [crawlLoop_some_succ]
      by_cases hm : u ∈ seen
      · rw [if_pos hm]
        exact ⟨List.nodup_nil, by simp⟩
      · rw [if_neg hm]
        obtain ⟨ihn, ihs⟩ := ih (next u) (u :: seen)
        refine ⟨List.nodup_cons.mpr ⟨?_, ihn⟩, ?_⟩
        · intro hu
          exact ihs u hu (List.mem_cons_self _ _)
        · intro v hv
          rcases List.mem_cons.mp hv with h | h
          · rw [h]; exact hm
          · intro hvs
            exact ihs v h (List.mem_cons_of_mem _ hvs)

/-- Claim C7: for every next-page oracle, page cap, and starting URL, the
crawl loop terminates having fetched each URL at most once (the trace has
no duplicates) and at most cap-many pages; in particular the two-page
cycle p1 → p2 → p1 under a cap of 5 fetches exactly the 2 distinct URLs. -/
theorem crawler_terminates_within_cap (next : String → Option String)
    (maxPages : Nat) (start : String) :
    (scrapeTrace next maxPages start).length ≤ maxPages ∧
    (scrapeTrace next maxPages start).Nodup ∧
    scrapeTrace cycNext 5 "p1" = ["p1", "p2"] :=
  ⟨crawlLoop_length_le next maxPages (some start) [],
   (crawlLoop_nodup next maxPages (some start) []).1,
   by decide⟩

/-! ### Pagination resolver: tier structure -/

theorem find_next_url_tier1 (joinUrl : String → String → String)
    (pathOf : String → String) (current : String) (anchors : List Anchor)
    (a : Anchor) (h : String)
    (hf : anchors.find? (fun x => x.relNext) = some a)
    (hh : a.href = some h) (hne : h ≠ "") :
    _find_next_url joinUrl pathOf current anchors =
      _normalize_href joinUrl current h := by
  simp [_find_next_url, hf, hh, hne]

theorem find_next_url_to_tier2 (joinUrl : String → String → String)
    (pathOf : String → String) (current : String) (anchors : List Anchor)
    (h1 : ∀ a, anchors.find? (fun x => x.relNext) = some a →
      hrefTruthy a = false) :
    _find_next_url joinUrl pathOf current anchors =
      findNextTier2 joinUrl pathOf current anchors := by
  unfold _find_next_url
  cases hf : anchors.find? (fun x => x.relNext) with
  | none => rfl
  | some a =>
    have ht := h1 a hf
    unfold hrefTruthy at ht
    cases hh : a.href with
    | none => simp [hh]
    | some h =>
      rw [hh] at ht
      simp only [Bool.not_eq_false'] at ht
      have hs : h = "" := by simpa using ht
      simp [hh, hs]

theorem tier2_hit (joinUrl : String → String → String)
    (pathOf : String → String) (current : String) (anchors : List Anchor)
    (a : Anchor)
    (hf : anchors.find?
      (fun x => pyLower x.text == "siguiente" && hrefTruthy x) = some a) :
    findNextTier2 joinUrl pathOf current anchors =
      _normalize_href joinUrl current (a.href.getD "") := by
  simp only [findNextTier2, hf]

theorem tier2_fallback (joinUrl : String → String → String)
    (pathOf : String → String) (current : String) (anchors : List Anchor)
    (hf : anchors.find?
      (fun x => pyLower x.text == "siguiente" && hrefTruthy x) = none) :
    findNextTier2 joinUrl pathOf current anchors =
      findNextFallback joinUrl pathOf current anchors := by
  simp only [findNextTier2, hf]

theorem findNextFallback_eq (joinUrl : String → String → String)
    (pathOf : String → String) (current : String) (anchors : List Anchor) :
    findNextFallback joinUrl pathOf current anchors =
      match (((pageCandidates joinUrl pathOf current anchors).map
          (fun c => c.1)).filter
          (fun p => (trailingNum (rstripSlash (pathOf current))).getD 1 < p)).min? with
      | some p => lookupLast (pageCandidates joinUrl pathOf current anchors) p
      | none => none := rfl

theorem lookupLast_isSome_of_mem {l : List (Nat × String)} {k : Nat}
    (h : k ∈ l.map (fun p => p.1)) : (lookupLast l k).isSome = true := by
  unfold lookupLast
  cases hf : l.reverse.find? (fun p => p.1 == k) with
  | some p => simp
  | none =>
    obtain ⟨p, hp, he⟩ := List.mem_map.mp h
    have hsome : (l.reverse.find? (fun p => p.1 == k)).isSome = true :=
      List.find?_isSome.mpr ⟨p, List.mem_reverse.mpr hp, by simp [he]⟩
    rw [hf] at hsome
    exact Bool.noConfusion hsome

/-- Claim C6: the next-URL resolver applies three tiers with the first
match winning: (1) the rel="next" anchor, when it carries a non-empty
href, returns that href normalized against the current URL; (2) otherwise
the first anchor whose lowercased text is "siguiente" (with a truthy href)
returns its normalized href; (3) otherwise the fallback takes the current
page number from the trailing integer of the current URL's path (1 if
absent), collects anchors whose resolved path ends in a trailing integer,
and returns the URL bound to the smallest page number strictly greater
than the current one, or signals no next page when none qualifies. -/
theorem pagination_resolution_order (joinUrl : String → String → String)
    (pathOf : String → String) (current : String) (anchors : List Anchor) :
    (∀ a h, anchors.find? (fun x => x.relNext) = some a → a.href = some h →
      h ≠ "" →
      _find_next_url joinUrl pathOf current anchors =
        _normalize_href joinUrl current h) ∧
    ((∀ a, anchors.find? (fun x => x.relNext) = some a →
        hrefTruthy a = false) →
      (∀ a, anchors.find?
          (fun x => pyLower x.text == "siguiente" && hrefTruthy x) = some a →
        _find_next_url joinUrl pathOf current anchors =
          _normalize_href joinUrl current (a.href.getD "")) ∧
      (anchors.find?
          (fun x => pyLower x.text == "siguiente" && hrefTruthy x) = none →
        ((∀ p ∈ (pageCandidates joinUrl pathOf current anchors).map
            (fun c => c.1),
            p ≤ (trailingNum (rstripSlash (pathOf current))).getD 1) →
          _find_next_url joinUrl pathOf current anchors = none) ∧
        (∀ pm,
          (((pageCandidates joinUrl pathOf current anchors).map
            (fun c => c.1)).filter
            (fun p => (trailingNum (rstripSlash (pathOf current))).getD 1 < p)).min? =
              some pm →
          _find_next_url joinUrl pathOf current anchors =
            lookupLast (pageCandidates joinUrl pathOf current anchors) pm ∧
          pm ∈ (pageCandidates joinUrl pathOf current anchors).map
            (fun c => c.1) ∧
          (trailingNum (rstripSlash (pathOf current))).getD 1 < pm ∧
          (∀ p ∈ (pageCandidates joinUrl pathOf current anchors).map
            (fun c => c.1),
            (trailingNum (rstripSlash (pathOf current))).getD 1 < p → pm ≤ p) ∧
          (lookupLast (pageCandidates joinUrl pathOf current anchors) pm).isSome
            = true))) := by
  refine ⟨?_, ?_⟩
  · intro a h hf hh hne
    exact find_next_url_tier1 joinUrl pathOf current anchors a h hf hh hne
  · intro h1
    have hred := find_next_url_to_tier2 joinUrl pathOf current anchors h1
    refine ⟨?_, ?_⟩
    · intro a hf
      rw [hred]
      exact tier2_hit joinUrl pathOf current anchors a hf
    · intro hf2
      have hred2 : _find_next_url joinUrl pathOf current anchors =
          findNextFallback joinUrl pathOf current anchors :=
        hred.trans (tier2_fallback joinUrl pathOf current anchors hf2)
      refine ⟨?_, ?_⟩
      · intro hall
        rw [hred2, findNextFallback_eq]
        have hfil : (((pageCandidates joinUrl pathOf current anchors).map
            (fun c => c.1)).filter
            (fun p => (trailingNum (rstripSlash (pathOf current))).getD 1 < p))
              = [] := by
          rw [List.filter_eq_nil_iff]
          intro p hp
          simp only [decide_eq_true_eq]
          exact Nat.not_lt.mpr (hall p hp)
        rw [hfil]
        rfl
      · intro pm hmin
        obtain ⟨hmem_f, hle⟩ :=
          (List.min?_eq_some_iff (fun x => Nat.le_refl x)
            (fun a b => min_choice a b) (fun a b c => le_min_iff)).mp hmin
        have hmem := (List.mem_filter.mp hmem_f).1
        have hgt : (trailingNum (rstripSlash (pathOf current))).getD 1 < pm := by
          have h2 := (List.mem_filter.mp hmem_f).2
          simpa using h2
        refine ⟨?_, hmem, hgt, ?_, lookupLast_isSome_of_mem hmem⟩
        · rw [hred2, findNextFallback_eq, hmin]
        · intro p hp hcp
          exact hle p (List.mem_filter.mpr ⟨hp, by simpa using hcp⟩)

/-- Witness for the C6 theorem: a page with a rel="next" anchor. -/
theorem pagination_resolution_order_witness :
    _find_next_url (fun b h => b ++ h) (fun s => s) "t/1"
      [⟨true, "n", some "/t/2"⟩] =
      _normalize_href (fun b h => b ++ h) "t/1" "/t/2" :=
  (pagination_resolution_order (fun b h => b ++ h) (fun s => s) "t/1"
      [⟨true, "n", some "/t/2"⟩]).1
    ⟨true, "n", some "/t/2"⟩ "/t/2" rfl rfl (by decide)

end ProcessMediavida
